import Mathlib

/-!
# Verification of the CGT lot-pool engine (`cgt_calculator.py`)

A shallow embedding of the tax-lot pool: `Asset` (a tax lot), `AssetPool`,
`buy` (acquire), and `sell` (dispose).  Python numbers are modelled as exact
rationals (`ℚ`), dates as integers.  The two run-time faults the source can
raise are modelled explicitly: the `IndexError` reached when the disposal
loop runs with an empty pool, and the `UnboundLocalError` reached when
`sell` returns the loop-local `taxable_gain` after zero loop iterations.
Fault results carry the pool state visible to the caller at raise time.
-/

/-- A tax lot (`Asset` in the source): acquisition date (integer day offset),
per-unit cost, quantity and discount eligibility (default `true`). -/
structure Asset where
  date : ℤ
  price : ℚ
  qty : ℚ
  cgt_eligible : Bool := true
deriving DecidableEq, Repr

/-- `Asset.cgt_price(sale_date, sale_price)`: per-unit taxable gain,
`sale_price - self.price`, halved when the lot is discount-eligible and was
held strictly more than 365 days. -/
def cgt_price (a : Asset) (sale_date : ℤ) (sale_price : ℚ) : ℚ :=
  let cgt := sale_price - a.price
  if a.cgt_eligible = true ∧ sale_date - a.date > 365 then cgt * (1 / 2) else cgt

/-- `AssetPool`: the lot list (insertion order) and the cumulative taxable
gain `self.taxable_gain` accumulated across the pool's lifetime. -/
structure AssetPool where
  pool : List Asset
  taxable_gain : ℚ
deriving DecidableEq, Repr

/-- `AssetPool.buy(date, price, qty)`: append a new lot (discount-eligible by
default). -/
def buy (ap : AssetPool) (date : ℤ) (price qty : ℚ) : AssetPool :=
  { ap with pool := ap.pool ++ [{ date := date, price := price, qty := qty }] }

/-- The `for i, asset in enumerate(self.pool)` scan inside
`AssetPool._choose_asset_to_sell`: carries the running index `i`, the best
index `cheapest_i` and best per-unit gain `cheapest_cgt`; a strict `<`
updates the best, so the first occurrence of the minimum wins. -/
def chooseLoop (date : ℤ) (price : ℚ) : List Asset → ℕ → ℕ → ℚ → ℕ
  | [], _, cheapest_i, _ => cheapest_i
  | asset :: rest, i, cheapest_i, cheapest_cgt =>
    let this_cgt := cgt_price asset date price
    if this_cgt < cheapest_cgt then
      chooseLoop date price rest (i + 1) i this_cgt
    else
      chooseLoop date price rest (i + 1) cheapest_i cheapest_cgt

/-- `AssetPool._choose_asset_to_sell(date, price)`: index of the pool lot
with the smallest `cgt_price`, lowest index on ties.  On an empty pool the
source raises `IndexError` at `self.pool[0]`; `sell` only calls it with a
nonempty pool (the empty case is turned into the error there), so the `[]`
branch below is dead code returning a junk index. -/
def choose_asset_to_sell (pool : List Asset) (date : ℤ) (price : ℚ) : ℕ :=
  match pool with
  | [] => 0
  | a :: _ => chooseLoop date price pool 0 0 (cgt_price a date price)

/-- Placeholder lot used for the (always in-range) `self.pool[index]` read. -/
def dfltAsset : Asset := { date := 0, price := 0, qty := 0 }

/-- `AssetPool._sell_asset(index, date, price, qty_sold)`: consume from the
lot at `index`.  If the lot's quantity strictly exceeds the requested
amount the lot survives with its quantity decremented; otherwise the lot is
removed (`pop(index)`) and the quantity sold is the lot's own quantity.
Returns (new pool, `taxable_gain`, `qty_sold`) where
`taxable_gain = qty_sold * asset.cgt_price(date, price)`. -/
def sell_asset (pool : List Asset) (index : ℕ) (date : ℤ) (price : ℚ) (qty_sold : ℚ) :
    List Asset × ℚ × ℚ :=
  let asset := pool.getD index dfltAsset
  if asset.qty > qty_sold then
    (pool.set index { asset with qty := asset.qty - qty_sold },
      qty_sold * cgt_price asset date price, qty_sold)
  else
    (pool.eraseIdx index, asset.qty * cgt_price asset date price, asset.qty)

/-- The two uncaught Python exceptions `AssetPool.sell` can raise:
`IndexError` (disposal loop entered with an empty pool) and
`UnboundLocalError` (`return taxable_gain` with the local never assigned,
i.e. the loop body ran zero times). -/
inductive SellError where
  | indexError
  | unboundLocal
deriving DecidableEq, Repr

/-- The `while qty_left > 0` loop of `AssetPool.sell`.  State: remaining
quantity `qty_left`, the running `total_taxable_gain`, and the loop-local
`taxable_gain` of the source (`none` while still unassigned).  Each
iteration selects a lot, consumes from it, decrements `qty_left` and adds
the iteration's gain to the total.  `fuel` bounds the iteration count;
every iteration either ends the loop (0 remaining) or shortens the pool,
so the `pool.length + 1` fuel passed by `sell` is always enough
(`sellLoop_ok` below) and the fuel-0 case is reached only with
`qty_left ≤ 0`, where it returns the same state the loop check would. -/
def sellLoop (date : ℤ) (price : ℚ) :
    ℕ → List Asset → ℚ → ℚ → Option ℚ →
    Except (SellError × List Asset) (List Asset × ℚ × Option ℚ)
  | 0, pool, _, total_taxable_gain, last => .ok (pool, total_taxable_gain, last)
  | fuel + 1, pool, qty_left, total_taxable_gain, last =>
    if 0 < qty_left then
      match pool with
      | [] => .error (.indexError, pool)
      | _ :: _ =>
        let index := choose_asset_to_sell pool date price
        let r := sell_asset pool index date price qty_left
        sellLoop date price fuel r.1 (qty_left - r.2.2)
          (total_taxable_gain + r.2.1) (some r.2.1)
    else
      .ok (pool, total_taxable_gain, last)

/-- `AssetPool.sell(date, price, qty)`: run the disposal loop, add the
disposal's total to `self.taxable_gain`, and return the loop-local
`taxable_gain` — the **last** iteration's gain, not the total.  When the
loop never ran, the `return` raises `UnboundLocalError` (after the
cumulative total was already updated by zero). -/
def sell (ap : AssetPool) (date : ℤ) (price qty : ℚ) :
    Except (SellError × AssetPool) (AssetPool × ℚ) :=
  match sellLoop date price (ap.pool.length + 1) ap.pool qty 0 none with
  | .error (e, pool) => .error (e, { pool := pool, taxable_gain := ap.taxable_gain })
  | .ok (pool, total_taxable_gain, last) =>
    match last with
    | some taxable_gain =>
      .ok ({ pool := pool, taxable_gain := ap.taxable_gain + total_taxable_gain },
        taxable_gain)
    | none =>
      .error (.unboundLocal,
        { pool := pool, taxable_gain := ap.taxable_gain + total_taxable_gain })

/-- Decidable equality of `Except` results, for evaluating the model on
concrete inputs. -/
instance {ε α : Type} [DecidableEq ε] [DecidableEq α] : DecidableEq (Except ε α) := fun x y =>
  match x, y with
  | .ok a, .ok b =>
    if h : a = b then .isTrue (by rw [h]) else .isFalse (by simp [h])
  | .error a, .error b =>
    if h : a = b then .isTrue (by rw [h]) else .isFalse (by simp [h])
  | .ok _, .error _ => .isFalse (by simp)
  | .error _, .ok _ => .isFalse (by simp)

/-- Total quantity held in a lot list. -/
def poolQty (pool : List Asset) : ℚ := (pool.map (fun a => a.qty)).sum

/-- Invariant of the `enumerate` scan: the returned index is either the
incoming best `cheapest_i` (when no element of `l` strictly beats
`cheapest_cgt`), or `i0 + k` for the first position `k` in `l` holding the
strict minimum below `cheapest_cgt`. -/
theorem chooseLoop_cases (date : ℤ) (price : ℚ) :
    ∀ (l : List Asset) (i0 bI : ℕ) (bC : ℚ),
      (chooseLoop date price l i0 bI bC = bI ∧
        ∀ k, k < l.length → bC ≤ cgt_price (l.getD k dfltAsset) date price) ∨
      (∃ k, k < l.length ∧
        chooseLoop date price l i0 bI bC = i0 + k ∧
        cgt_price (l.getD k dfltAsset) date price < bC ∧
        (∀ m, m < l.length →
          cgt_price (l.getD k dfltAsset) date price ≤
            cgt_price (l.getD m dfltAsset) date price) ∧
        (∀ m, m < k →
          cgt_price (l.getD k dfltAsset) date price <
            cgt_price (l.getD m dfltAsset) date price)) := by
  intro l
  induction l with
  | nil =>
    intro i0 bI bC
    left
    constructor
    · rfl
    · intro k hk
      simp at hk
  | cons a rest ih =>
    intro i0 bI bC
    by_cases h : cgt_price a date price < bC
    · have step : chooseLoop date price (a :: rest) i0 bI bC =
          chooseLoop date price rest (i0 + 1) i0 (cgt_price a date price) := by
        simp [chooseLoop, h]
      rcases ih (i0 + 1) i0 (cgt_price a date price) with ⟨he, hall⟩ | ⟨k, hk, he, hlt, hmin, hstrict⟩
      · right
        refine ⟨0, by simp, ?_, ?_, ?_, ?_⟩
        · rw [step, he]
          omega
        · simpa using h
        · intro m hm
          match m with
          | 0 => simp
          | m + 1 =>
            simp only [List.getD_cons_zero, List.getD_cons_succ]
            exact hall m (by simpa using hm)
        · intro m hm
          omega
      · right
        refine ⟨k + 1, by simpa using hk, ?_, ?_, ?_, ?_⟩
        · rw [step, he]
          omega
        · simp only [List.getD_cons_succ]
          exact lt_trans hlt h
        · intro m hm
          match m with
          | 0 =>
            simp only [List.getD_cons_succ, List.getD_cons_zero]
            exact le_of_lt hlt
          | m + 1 =>
            simp only [List.getD_cons_succ]
            exact hmin m (by simpa using hm)
        · intro m hm
          match m with
          | 0 =>
            simp only [List.getD_cons_succ, List.getD_cons_zero]
            exact hlt
          | m + 1 =>
            simp only [List.getD_cons_succ]
            exact hstrict m (by omega)
    · have step : chooseLoop date price (a :: rest) i0 bI bC =
          chooseLoop date price rest (i0 + 1) bI bC := by
        simp [chooseLoop, h]
      rcases ih (i0 + 1) bI bC with ⟨he, hall⟩ | ⟨k, hk, he, hlt, hmin, hstrict⟩
      · left
        constructor
        · rw [step, he]
        · intro k hk
          match k with
          | 0 => simpa using le_of_not_lt h
          | k + 1 =>
            simp only [List.getD_cons_succ]
            exact hall k (by simpa using hk)
      · right
        refine ⟨k + 1, by simpa using hk, ?_, ?_, ?_, ?_⟩
        · rw [step, he]
          omega
        · simp only [List.getD_cons_succ]
          exact hlt

        · intro m hm
          match m with
          | 0 =>
            simp only [List.getD_cons_succ, List.getD_cons_zero]
            exact le_of_lt (lt_of_lt_of_le hlt (le_of_not_lt h))
          | m + 1 =>
            simp only [List.getD_cons_succ]
            exact hmin m (by simpa using hm)
        · intro m hm
          match m with
          | 0 =>
            simp only [List.getD_cons_succ, List.getD_cons_zero]
            exact lt_of_lt_of_le hlt (le_of_not_lt h)
          | m + 1 =>
            simp only [List.getD_cons_succ]
            exact hstrict m (by omega)

/-- The chosen index is in range. -/
theorem choose_lt_length (pool : List Asset) (date : ℤ) (price : ℚ) (hne : pool ≠ []) :
    choose_asset_to_sell pool date price < pool.length := by
  match pool with
  | a :: rest =>
    have hch : choose_asset_to_sell (a :: rest) date price =
        chooseLoop date price (a :: rest) 0 0 (cgt_price a date price) := rfl
    rw [hch]
    rcases chooseLoop_cases date price (a :: rest) 0 0 (cgt_price a date price) with
      ⟨he, _⟩ | ⟨k, hk, he, _, _, _⟩
    · rw [he]
      simp
    · rw [he]
      simpa using hk

/-- The chosen lot attains the minimum per-unit gain over the pool. -/
theorem choose_min (pool : List Asset) (date : ℤ) (price : ℚ) (hne : pool ≠ []) :
    ∀ m, m < pool.length →
      cgt_price (pool.getD (choose_asset_to_sell pool date price) dfltAsset) date price ≤
        cgt_price (pool.getD m dfltAsset) date price := by
  match pool with
  | a :: rest =>
    intro m hm
    have hch : choose_asset_to_sell (a :: rest) date price =
        chooseLoop date price (a :: rest) 0 0 (cgt_price a date price) := rfl
    rw [hch]
    rcases chooseLoop_cases date price (a :: rest) 0 0 (cgt_price a date price) with
      ⟨he, hall⟩ | ⟨k, hk, he, hlt, hmin, _⟩
    · rw [he]
      simpa using hall m hm
    · rw [he]
      simpa using hmin m hm

/-- Every index strictly before the chosen one has strictly larger per-unit
gain: ties are broken in favour of the lowest insertion-order index. -/
theorem choose_first (pool : List Asset) (date : ℤ) (price : ℚ) (hne : pool ≠ []) :
    ∀ m, m < choose_asset_to_sell pool date price →
      cgt_price (pool.getD (choose_asset_to_sell pool date price) dfltAsset) date price <
        cgt_price (pool.getD m dfltAsset) date price := by
  match pool with
  | a :: rest =>
    intro m
    have hch : choose_asset_to_sell (a :: rest) date price =
        chooseLoop date price (a :: rest) 0 0 (cgt_price a date price) := rfl
    rw [hch]
    rcases chooseLoop_cases date price (a :: rest) 0 0 (cgt_price a date price) with
      ⟨he, hall⟩ | ⟨k, hk, he, hlt, _, hstrict⟩
    · rw [he]
      omega
    · rw [he]
      intro hm
      rw [Nat.zero_add]
      exact hstrict m (by omega)

/-- `cgt_price` does not read the quantity field. -/
theorem cgt_price_qty_update (a : Asset) (x : ℚ) (date : ℤ) (price : ℚ) :
    cgt_price { a with qty := x } date price = cgt_price a date price := rfl

theorem poolQty_nil : poolQty [] = 0 := rfl

theorem poolQty_cons (a : Asset) (l : List Asset) :
    poolQty (a :: l) = a.qty + poolQty l := by
  simp [poolQty]

/-- Quantity bookkeeping for an in-place lot update at a valid index. -/
theorem poolQty_set (l : List Asset) (i : ℕ) (a : Asset) (hi : i < l.length) :
    poolQty (l.set i a) = poolQty l - (l.getD i dfltAsset).qty + a.qty := by
  induction l generalizing i with
  | nil => simp at hi
  | cons x xs ih =>
    match i with
    | 0 =>
      simp only [List.set_cons_zero, List.getD_cons_zero, poolQty_cons]
      ring
    | i + 1 =>
      simp only [List.set_cons_succ, List.getD_cons_succ, poolQty_cons]
      rw [ih i (by simpa using hi)]
      ring

/-- Quantity bookkeeping for removing the lot at a valid index. -/
theorem poolQty_eraseIdx (l : List Asset) (i : ℕ) (hi : i < l.length) :
    poolQty (l.eraseIdx i) = poolQty l - (l.getD i dfltAsset).qty := by
  induction l generalizing i with
  | nil => simp at hi
  | cons x xs ih =>
    match i with
    | 0 =>
      simp only [List.eraseIdx_cons_zero, List.getD_cons_zero, poolQty_cons]
      ring
    | i + 1 =>
      simp only [List.eraseIdx_cons_succ, List.getD_cons_succ, poolQty_cons]
      rw [ih i (by simpa using hi)]
      ring

/-- A valid-index `getD` read is a member of the list. -/
theorem getD_mem (l : List Asset) (i : ℕ) (hi : i < l.length) :
    l.getD i dfltAsset ∈ l := by
  rw [List.getD_eq_getElem l dfltAsset hi]
  exact List.getElem_mem hi

/-- The disposal loop is the identity when no quantity remains to sell. -/
theorem sellLoop_nonpos (date : ℤ) (price : ℚ) (fuel : ℕ) (pool : List Asset)
    (q t : ℚ) (l : Option ℚ) (hq : ¬ 0 < q) :
    sellLoop date price fuel pool q t l = .ok (pool, t, l) := by
  match fuel with
  | 0 => rfl
  | fuel + 1 => simp [sellLoop, hq]

/-- The disposal loop raises `IndexError` on an empty pool with quantity
still to sell. -/
theorem sellLoop_empty (date : ℤ) (price : ℚ) (fuel : ℕ) (q t : ℚ) (l : Option ℚ)
    (hq : 0 < q) :
    sellLoop date price (fuel + 1) [] q t l = .error (.indexError, []) := by
  simp [sellLoop, hq]

/-- One iteration of the disposal loop: select the minimum-gain lot, consume
from it, decrement the remaining quantity, accumulate the contribution. -/
theorem sellLoop_step (date : ℤ) (price : ℚ) (fuel : ℕ) (pool : List Asset)
    (q t : ℚ) (l : Option ℚ) (hq : 0 < q) (hne : pool ≠ []) :
    sellLoop date price (fuel + 1) pool q t l =
      sellLoop date price fuel
        (sell_asset pool (choose_asset_to_sell pool date price) date price q).1
        (q - (sell_asset pool (choose_asset_to_sell pool date price) date price q).2.2)
        (t + (sell_asset pool (choose_asset_to_sell pool date price) date price q).2.1)
        (some (sell_asset pool (choose_asset_to_sell pool date price) date price q).2.1) := by
  match pool with
  | a :: rest => simp only [sellLoop, if_pos hq]

/-- `sell_asset` when the lot strictly exceeds the requested quantity:
in-place decrement, consumed quantity is the request. -/
theorem sell_asset_gt (pool : List Asset) (i : ℕ) (date : ℤ) (price q : ℚ)
    (h : (pool.getD i dfltAsset).qty > q) :
    sell_asset pool i date price q =
      (pool.set i
        { pool.getD i dfltAsset with qty := (pool.getD i dfltAsset).qty - q },
       q * cgt_price (pool.getD i dfltAsset) date price, q) := by
  simp only [sell_asset]
  rw [if_pos h]

/-- `sell_asset` when the lot does not exceed the requested quantity: the
lot is removed and the consumed quantity is the lot's own quantity. -/
theorem sell_asset_le (pool : List Asset) (i : ℕ) (date : ℤ) (price q : ℚ)
    (h : ¬ (pool.getD i dfltAsset).qty > q) :
    sell_asset pool i date price q =
      (pool.eraseIdx i,
       (pool.getD i dfltAsset).qty * cgt_price (pool.getD i dfltAsset) date price,
       (pool.getD i dfltAsset).qty) := by
  simp only [sell_asset]
  rw [if_neg h]

/-- Success, conservation and positivity of the disposal loop: with positive
requested quantity within the pool's total and enough fuel, the loop
succeeds, the pool total drops by exactly the requested quantity, and
positive lot quantities are preserved. -/
theorem sellLoop_ok (date : ℤ) (price : ℚ) :
    ∀ (fuel : ℕ) (pool : List Asset) (q t : ℚ) (l : Option ℚ),
      0 < q → q ≤ poolQty pool → pool.length < fuel →
      ∃ p' t' lst,
        sellLoop date price fuel pool q t l = .ok (p', t', some lst) ∧
        poolQty p' = poolQty pool - q ∧
        ((∀ a ∈ pool, 0 < a.qty) → ∀ a ∈ p', 0 < a.qty) := by
  intro fuel
  induction fuel with
  | zero =>
    intro pool q t l _ _ hf
    omega
  | succ fuel ih =>
    intro pool q t l hq hle hf
    have hne : pool ≠ [] := by
      intro hnil
      rw [hnil] at hle
      rw [poolQty_nil] at hle
      exact absurd (lt_of_lt_of_le hq hle) (lt_irrefl 0)
    have hi : choose_asset_to_sell pool date price < pool.length :=
      choose_lt_length pool date price hne
    rw [sellLoop_step date price fuel pool q t l hq hne]
    by_cases hcase : (pool.getD (choose_asset_to_sell pool date price) dfltAsset).qty > q
    · -- lot strictly bigger than the remaining quantity: in-place decrement, loop stops
      rw [sell_asset_gt pool (choose_asset_to_sell pool date price) date price q hcase]
      rw [sellLoop_nonpos date price fuel _ (q - q) _ _ (by simp)]
      refine ⟨_, _, _, rfl, ?_, ?_⟩
      · rw [poolQty_set pool _ _ hi]
        ring
      · intro hpos b hb
        rcases List.mem_or_eq_of_mem_set hb with hmem | heq
        · exact hpos b hmem
        · rw [heq]
          simpa using sub_pos.mpr hcase
    · -- lot fully consumed and removed
      rw [sell_asset_le pool (choose_asset_to_sell pool date price) date price q hcase]
      have hqty_le : (pool.getD (choose_asset_to_sell pool date price) dfltAsset).qty ≤ q :=
        le_of_not_lt hcase
      have herase : poolQty (pool.eraseIdx (choose_asset_to_sell pool date price)) =
          poolQty pool - (pool.getD (choose_asset_to_sell pool date price) dfltAsset).qty :=
        poolQty_eraseIdx pool _ hi
      by_cases hstop : 0 < q - (pool.getD (choose_asset_to_sell pool date price) dfltAsset).qty
      · have hlen : (pool.eraseIdx (choose_asset_to_sell pool date price)).length < fuel := by
          rw [List.length_eraseIdx pool _]
          rw [if_pos hi]
          omega
        have hle' : q - (pool.getD (choose_asset_to_sell pool date price) dfltAsset).qty ≤
            poolQty (pool.eraseIdx (choose_asset_to_sell pool date price)) := by
          rw [herase]
          linarith
        rcases ih (pool.eraseIdx (choose_asset_to_sell pool date price))
            (q - (pool.getD (choose_asset_to_sell pool date price) dfltAsset).qty) _ _
            hstop hle' hlen with ⟨p', t', lst, heq, hcons, hpos⟩
        refine ⟨p', t', lst, heq, ?_, ?_⟩
        · rw [hcons, herase]
          ring
        · intro hp b hb
          exact hpos (fun c hc => hp c (List.mem_of_mem_eraseIdx hc)) b hb
      · rw [sellLoop_nonpos date price fuel _ _ _ _ hstop]
        refine ⟨_, _, _, rfl, ?_, ?_⟩
        · have : q = (pool.getD (choose_asset_to_sell pool date price) dfltAsset).qty := by
            linarith
          rw [herase, this]
        · intro hp b hb
          exact hp b (List.mem_of_mem_eraseIdx hb)

/-- One partial-consumption iteration, with the branch resolved. -/
theorem sellLoop_step_set (date : ℤ) (price : ℚ) (fuel : ℕ) (pool : List Asset)
    (q t : ℚ) (l : Option ℚ) (hq : 0 < q) (hne : pool ≠ [])
    (hcase : (pool.getD (choose_asset_to_sell pool date price) dfltAsset).qty > q) :
    sellLoop date price (fuel + 1) pool q t l =
      sellLoop date price fuel
        (pool.set (choose_asset_to_sell pool date price)
          { pool.getD (choose_asset_to_sell pool date price) dfltAsset with
            qty := (pool.getD (choose_asset_to_sell pool date price) dfltAsset).qty - q })
        (q - q)
        (t + q * cgt_price (pool.getD (choose_asset_to_sell pool date price) dfltAsset) date price)
        (some (q * cgt_price (pool.getD (choose_asset_to_sell pool date price) dfltAsset) date price)) := by
  rw [sellLoop_step date price fuel pool q t l hq hne,
    sell_asset_gt pool (choose_asset_to_sell pool date price) date price q hcase]

/-- One full-consumption iteration, with the branch resolved. -/
theorem sellLoop_step_erase (date : ℤ) (price : ℚ) (fuel : ℕ) (pool : List Asset)
    (q t : ℚ) (l : Option ℚ) (hq : 0 < q) (hne : pool ≠ [])
    (hcase : ¬ (pool.getD (choose_asset_to_sell pool date price) dfltAsset).qty > q) :
    sellLoop date price (fuel + 1) pool q t l =
      sellLoop date price fuel
        (pool.eraseIdx (choose_asset_to_sell pool date price))
        (q - (pool.getD (choose_asset_to_sell pool date price) dfltAsset).qty)
        (t + (pool.getD (choose_asset_to_sell pool date price) dfltAsset).qty *
          cgt_price (pool.getD (choose_asset_to_sell pool date price) dfltAsset) date price)
        (some ((pool.getD (choose_asset_to_sell pool date price) dfltAsset).qty *
          cgt_price (pool.getD (choose_asset_to_sell pool date price) dfltAsset) date price)) := by
  rw [sellLoop_step date price fuel pool q t l hq hne,
    sell_asset_le pool (choose_asset_to_sell pool date price) date price q hcase]

/-- The running total never decreases across the loop when every lot in the
pool has positive quantity and nonnegative per-unit gain. -/
theorem sellLoop_total_mono (date : ℤ) (price : ℚ) :
    ∀ (fuel : ℕ) (pool : List Asset) (q t : ℚ) (l : Option ℚ)
      (p' : List Asset) (t' : ℚ) (lst : Option ℚ),
      (∀ a ∈ pool, 0 < a.qty) → (∀ a ∈ pool, 0 ≤ cgt_price a date price) →
      sellLoop date price fuel pool q t l = .ok (p', t', lst) → t ≤ t' := by
  intro fuel
  induction fuel with
  | zero =>
    intro pool q t l p' t' lst _ _ heq
    rw [show sellLoop date price 0 pool q t l = .ok (pool, t, l) from rfl] at heq
    simp only [Except.ok.injEq, Prod.mk.injEq] at heq
    exact le_of_eq heq.2.1
  | succ fuel ih =>
    intro pool q t l p' t' lst hpos hgain heq
    by_cases hq : 0 < q
    · cases pool with
      | nil =>
        rw [sellLoop_empty date price fuel q t l hq] at heq
        exact absurd heq (by simp)
      | cons a rest =>
        have hne : (a :: rest) ≠ [] := by simp
        have hi := choose_lt_length (a :: rest) date price hne
        have hmem := getD_mem (a :: rest) (choose_asset_to_sell (a :: rest) date price) hi
        by_cases hcase :
            ((a :: rest).getD (choose_asset_to_sell (a :: rest) date price) dfltAsset).qty > q
        · rw [sellLoop_step_set date price fuel (a :: rest) q t l hq hne hcase] at heq
          have hstep : t ≤ t + q *
              cgt_price ((a :: rest).getD (choose_asset_to_sell (a :: rest) date price)
                dfltAsset) date price :=
            le_add_of_nonneg_right (mul_nonneg (le_of_lt hq) (hgain _ hmem))
          refine le_trans hstep (ih _ _ _ _ _ _ _ ?_ ?_ heq)
          · intro b hb
            rcases List.mem_or_eq_of_mem_set hb with hmemb | heqb
            · exact hpos b hmemb
            · rw [heqb]
              simpa using sub_pos.mpr hcase
          · intro b hb
            rcases List.mem_or_eq_of_mem_set hb with hmemb | heqb
            · exact hgain b hmemb
            · rw [heqb, cgt_price_qty_update]
              exact hgain _ hmem
        · rw [sellLoop_step_erase date price fuel (a :: rest) q t l hq hne hcase] at heq
          have hstep : t ≤ t +
              ((a :: rest).getD (choose_asset_to_sell (a :: rest) date price) dfltAsset).qty *
              cgt_price ((a :: rest).getD (choose_asset_to_sell (a :: rest) date price)
                dfltAsset) date price :=
            le_add_of_nonneg_right (mul_nonneg (le_of_lt (hpos _ hmem)) (hgain _ hmem))
          refine le_trans hstep (ih _ _ _ _ _ _ _ ?_ ?_ heq)
          · intro b hb
            exact hpos b (List.mem_of_mem_eraseIdx hb)
          · intro b hb
            exact hgain b (List.mem_of_mem_eraseIdx hb)
    · rw [sellLoop_nonpos date price (fuel + 1) pool q t l hq] at heq
      simp only [Except.ok.injEq, Prod.mk.injEq] at heq
      exact le_of_eq heq.2.1

/-- Unfolding `sell` on a successful loop run. -/
theorem sell_eq_of_loop (ap : AssetPool) (date : ℤ) (price qty : ℚ)
    (p' : List Asset) (t' : ℚ) (lst : ℚ)
    (heq : sellLoop date price (ap.pool.length + 1) ap.pool qty 0 none =
      .ok (p', t', some lst)) :
    sell ap date price qty =
      .ok ({ pool := p', taxable_gain := ap.taxable_gain + t' }, lst) := by
  unfold sell
  rw [heq]

/-- Success, conservation and positivity at the `sell` level. -/
theorem sell_ok (ap : AssetPool) (date : ℤ) (price qty : ℚ)
    (hq : 0 < qty) (hle : qty ≤ poolQty ap.pool) :
    ∃ ap' r, sell ap date price qty = .ok (ap', r) ∧
      poolQty ap'.pool = poolQty ap.pool - qty ∧
      ((∀ a ∈ ap.pool, 0 < a.qty) → ∀ a ∈ ap'.pool, 0 < a.qty) := by
  rcases sellLoop_ok date price (ap.pool.length + 1) ap.pool qty 0 none hq hle
    (by omega) with ⟨p', t', lst, heq, hcons, hpos⟩
  exact ⟨_, _, sell_eq_of_loop ap date price qty p' t' lst heq, hcons, hpos⟩

/-- Unfolding `sell` when the loop raises. -/
theorem sell_eq_loop_err (ap : AssetPool) (date : ℤ) (price qty : ℚ)
    (e : SellError) (pl : List Asset)
    (heq : sellLoop date price (ap.pool.length + 1) ap.pool qty 0 none = .error (e, pl)) :
    sell ap date price qty = .error (e, { pool := pl, taxable_gain := ap.taxable_gain }) := by
  unfold sell
  rw [heq]

/-- Unfolding `sell` when the loop ran zero iterations: the `return` of the
unassigned local raises `UnboundLocalError`. -/
theorem sell_eq_loop_none (ap : AssetPool) (date : ℤ) (price qty : ℚ)
    (p' : List Asset) (t' : ℚ)
    (heq : sellLoop date price (ap.pool.length + 1) ap.pool qty 0 none = .ok (p', t', none)) :
    sell ap date price qty =
      .error (.unboundLocal, { pool := p', taxable_gain := ap.taxable_gain + t' }) := by
  unfold sell
  rw [heq]

/-- A successful `sell` comes from a successful loop run with an assigned
last-iteration gain. -/
theorem sell_ok_inv (ap : AssetPool) (date : ℤ) (price qty : ℚ) (ap' : AssetPool) (r : ℚ)
    (h : sell ap date price qty = .ok (ap', r)) :
    ∃ p' t', sellLoop date price (ap.pool.length + 1) ap.pool qty 0 none = .ok (p', t', some r) ∧
      ap' = { pool := p', taxable_gain := ap.taxable_gain + t' } := by
  cases hres : sellLoop date price (ap.pool.length + 1) ap.pool qty 0 none with
  | error ep =>
    obtain ⟨e, pl⟩ := ep
    rw [sell_eq_loop_err ap date price qty e pl hres] at h
    exact absurd h (by simp)
  | ok res =>
    obtain ⟨pl, t', last⟩ := res
    cases last with
    | none =>
      rw [sell_eq_loop_none ap date price qty pl t' hres] at h
      exact absurd h (by simp)
    | some lst =>
      rw [sell_eq_of_loop ap date price qty pl t' lst hres] at h
      simp only [Except.ok.injEq, Prod.mk.injEq] at h
      obtain ⟨h1, h2⟩ := h
      subst h2
      exact ⟨pl, t', rfl, h1.symm⟩

/-- **C5.** For every tax lot and every disposal date and price,
`cgt_price` returns the disposal price minus the unit cost, multiplied by
one half exactly when the lot is discount-eligible and was held strictly
more than 365 days; a lot acquired at day 0 receives no discount when
disposed at day 365 and receives it at day 366; and the computation is
pure — it is a function of the lot only (the lot and pool are unchanged)
and identical arguments give identical results. -/
theorem C5_per_unit_gain_spec :
    (∀ (a : Asset) (d : ℤ) (p : ℚ),
      cgt_price a d p =
        if a.cgt_eligible = true ∧ d - a.date > 365 then (p - a.price) * (1 / 2)
        else p - a.price) ∧
    (∀ c p : ℚ, cgt_price { date := 0, price := c, qty := 1 } 365 p = p - c) ∧
    (∀ c p : ℚ, cgt_price { date := 0, price := c, qty := 1 } 366 p = (p - c) * (1 / 2)) ∧
    (∀ (a : Asset) (d : ℤ) (p : ℚ), cgt_price a d p = cgt_price a d p) := by
  refine ⟨fun a d p => rfl, fun c p => ?_, fun c p => ?_, fun a d p => rfl⟩
  · show cgt_price { date := 0, price := c, qty := 1 } 365 p = p - c
    simp [cgt_price]
  · show cgt_price { date := 0, price := c, qty := 1 } 366 p = (p - c) * (1 / 2)
    simp [cgt_price]

/-- **C2.** The reference scenario: buy (0, 1000, 1), (10, 2000, 1),
(20, 3000, 1), (400, 4000, 1), then sell 2.5 units at (401, 5000).  The
code's cumulative taxable gain is 2750 — not the 4000 the spec (and the
source's own `test_case_1` assertion) expects, so `test_case_1` fails. -/
theorem C2_scenario_gain_2750 :
    sell (buy (buy (buy (buy { pool := [], taxable_gain := 0 } 0 1000 1)
        10 2000 1) 20 3000 1) 400 4000 1) 401 5000 (5 / 2) =
      .ok ({ pool := [{ date := 0, price := 1000, qty := 1 },
                      { date := 10, price := 2000, qty := 1 / 2 }],
             taxable_gain := 2750 }, 750) ∧
    (2750 : ℚ) ≠ 4000 := by
  constructor
  · norm_num [sell, sellLoop, choose_asset_to_sell, chooseLoop, sell_asset, cgt_price, dfltAsset, buy]
  · norm_num

/-- **C3.** A disposal consuming two lots (gains 10 then 20, total 30):
`sell` returns 20, the last consumed lot's contribution, while the
cumulative gain records the disposal total 30 — the return value is not the
disposal's total taxable gain. -/
theorem C3_returns_last_not_total :
    sell { pool := [{ date := 0, price := 10, qty := 1 },
                    { date := 0, price := 20, qty := 1 }], taxable_gain := 0 } 0 30 2 =
      .ok ({ pool := [], taxable_gain := 30 }, 20) ∧
    (20 : ℚ) ≠ 30 := by
  constructor
  · norm_num [sell, sellLoop, choose_asset_to_sell, chooseLoop, sell_asset, cgt_price, dfltAsset, buy]
  · norm_num

/-- **C7.** Disposing 2 units from a pool holding 1: the code consumes all
inventory, then re-enters the loop with an empty pool and raises an
uncaught `IndexError` (after printing a diagnostic) — not an
`InsufficientInventory` error; the pool is left emptied and the cumulative
gain is never updated with the partial consumption. -/
theorem C7_oversell_index_error :
    sell { pool := [{ date := 0, price := 10, qty := 1 }], taxable_gain := 0 } 0 20 2 =
      .error (.indexError, { pool := [], taxable_gain := 0 }) := by
  norm_num [sell, sellLoop, choose_asset_to_sell, chooseLoop, sell_asset, cgt_price, dfltAsset, buy]

/-- **C9.** Disposing quantity 0: the loop body never runs, so
`return taxable_gain` raises `UnboundLocalError` — the call does fail fast
(no silent no-op, no infinite loop), but with an accidental
`UnboundLocalError`, not an `InvalidArgument` validation error. -/
theorem C9_zero_qty_unbound_local :
    sell { pool := [{ date := 0, price := 10, qty := 1 }], taxable_gain := 0 } 5 10 0 =
      .error (.unboundLocal,
        { pool := [{ date := 0, price := 10, qty := 1 }], taxable_gain := 0 }) := by
  norm_num [sell, sellLoop, choose_asset_to_sell, chooseLoop, sell_asset, cgt_price, dfltAsset, buy]

/-- **C8 (counterexample).** Buy 1 unit at cost 100, dispose it at price 50:
the disposal succeeds and the cumulative taxable gain drops from 0 to -50 —
`taxable_gain` is not monotonically non-decreasing across successful
disposals. -/
theorem C8_cumulative_gain_decreases :
    sell { pool := [{ date := 0, price := 100, qty := 1 }], taxable_gain := 0 } 0 50 1 =
      .ok ({ pool := [], taxable_gain := -50 }, -50) ∧
    ¬ ((0 : ℚ) ≤ -50) := by
  constructor
  · norm_num [sell, sellLoop, choose_asset_to_sell, chooseLoop, sell_asset, cgt_price, dfltAsset, buy]
  · norm_num

/-- **C8 (amended).** Across a successful disposal the cumulative taxable
gain changes by the disposal's total; it is non-decreasing whenever every
lot in the pool has positive quantity and nonnegative per-unit gain at the
disposal's date and price (loss-making disposals strictly decrease it). -/
theorem C8_mono_nonneg_gains (ap : AssetPool) (date : ℤ) (price qty : ℚ)
    (ap' : AssetPool) (r : ℚ)
    (hpos : ∀ a ∈ ap.pool, 0 < a.qty)
    (hgain : ∀ a ∈ ap.pool, 0 ≤ cgt_price a date price)
    (h : sell ap date price qty = .ok (ap', r)) :
    ap.taxable_gain ≤ ap'.taxable_gain := by
  rcases sell_ok_inv ap date price qty ap' r h with ⟨p', t', heq, hap⟩
  have hmono := sellLoop_total_mono date price (ap.pool.length + 1) ap.pool qty 0 none
    p' t' (some r) hpos hgain heq
  rw [hap]
  exact le_add_of_nonneg_right hmono

theorem C8_mono_nonneg_gains_witness :
    sell { pool := [{ date := 0, price := 10, qty := 2 }], taxable_gain := 0 } 0 20 1 =
      .ok ({ pool := [{ date := 0, price := 10, qty := 1 }], taxable_gain := 10 }, 10) ∧
    ({ pool := [{ date := 0, price := 10, qty := 2 }], taxable_gain := 0 } : AssetPool).taxable_gain ≤
      ({ pool := [{ date := 0, price := 10, qty := 1 }], taxable_gain := 10 } : AssetPool).taxable_gain := by
  have hsell : sell { pool := [{ date := 0, price := 10, qty := 2 }], taxable_gain := 0 } 0 20 1 =
      .ok ({ pool := [{ date := 0, price := 10, qty := 1 }], taxable_gain := 10 }, 10) := by
    norm_num [sell, sellLoop, choose_asset_to_sell, chooseLoop, sell_asset, cgt_price, dfltAsset, buy]
  refine ⟨hsell, C8_mono_nonneg_gains _ 0 20 1 _ 10 ?_ ?_ hsell⟩
  · intro a ha
    rw [List.mem_singleton] at ha
    subst ha
    norm_num
  · intro a ha
    rw [List.mem_singleton] at ha
    subst ha
    norm_num [cgt_price]

/-- **C1.** One iteration of the disposal loop, on a nonempty pool with
positive remaining quantity: the selected index is in range and holds the
strictly smallest per-unit gain with ties broken to the lowest index; the
quantity consumed is `min (lot quantity) (remaining)`; if the lot's
quantity strictly exceeds the remaining quantity the lot survives with its
quantity decremented, otherwise the lot is removed and the consumed
quantity is its pre-consumption quantity; the iteration's contribution is
(consumed quantity) x (that lot's per-unit gain), and the loop recurses
with the remaining quantity decremented and the contribution added to the
disposal's running total. -/
theorem C1_iteration_behaviour (pool : List Asset) (date : ℤ) (price : ℚ)
    (qty_left total : ℚ) (last : Option ℚ) (fuel : ℕ)
    (hne : pool ≠ []) (hq : 0 < qty_left) :
    choose_asset_to_sell pool date price < pool.length ∧
    (∀ m, m < pool.length →
      cgt_price (pool.getD (choose_asset_to_sell pool date price) dfltAsset) date price ≤
        cgt_price (pool.getD m dfltAsset) date price) ∧
    (∀ m, m < choose_asset_to_sell pool date price →
      cgt_price (pool.getD (choose_asset_to_sell pool date price) dfltAsset) date price <
        cgt_price (pool.getD m dfltAsset) date price) ∧
    (sell_asset pool (choose_asset_to_sell pool date price) date price qty_left).2.2 =
      min (pool.getD (choose_asset_to_sell pool date price) dfltAsset).qty qty_left ∧
    ((pool.getD (choose_asset_to_sell pool date price) dfltAsset).qty > qty_left →
      (sell_asset pool (choose_asset_to_sell pool date price) date price qty_left).1 =
        pool.set (choose_asset_to_sell pool date price)
          { pool.getD (choose_asset_to_sell pool date price) dfltAsset with
            qty := (pool.getD (choose_asset_to_sell pool date price) dfltAsset).qty - qty_left } ∧
      (sell_asset pool (choose_asset_to_sell pool date price) date price qty_left).2.2 =
        qty_left) ∧
    (¬ (pool.getD (choose_asset_to_sell pool date price) dfltAsset).qty > qty_left →
      (sell_asset pool (choose_asset_to_sell pool date price) date price qty_left).1 =
        pool.eraseIdx (choose_asset_to_sell pool date price) ∧
      (sell_asset pool (choose_asset_to_sell pool date price) date price qty_left).2.2 =
        (pool.getD (choose_asset_to_sell pool date price) dfltAsset).qty) ∧
    (sell_asset pool (choose_asset_to_sell pool date price) date price qty_left).2.1 =
      (sell_asset pool (choose_asset_to_sell pool date price) date price qty_left).2.2 *
        cgt_price (pool.getD (choose_asset_to_sell pool date price) dfltAsset) date price ∧
    sellLoop date price (fuel + 1) pool qty_left total last =
      sellLoop date price fuel
        (sell_asset pool (choose_asset_to_sell pool date price) date price qty_left).1
        (qty_left - (sell_asset pool (choose_asset_to_sell pool date price) date price qty_left).2.2)
        (total + (sell_asset pool (choose_asset_to_sell pool date price) date price qty_left).2.1)
        (some (sell_asset pool (choose_asset_to_sell pool date price) date price qty_left).2.1) := by
  refine ⟨choose_lt_length pool date price hne, choose_min pool date price hne,
    choose_first pool date price hne, ?_, ?_, ?_, ?_,
    sellLoop_step date price fuel pool qty_left total last hq hne⟩
  · by_cases hcase : (pool.getD (choose_asset_to_sell pool date price) dfltAsset).qty > qty_left
    · rw [sell_asset_gt pool (choose_asset_to_sell pool date price) date price qty_left hcase]
      exact (min_eq_right (le_of_lt hcase)).symm
    · rw [sell_asset_le pool (choose_asset_to_sell pool date price) date price qty_left hcase]
      exact (min_eq_left (le_of_not_lt hcase)).symm
  · intro hcase
    rw [sell_asset_gt pool (choose_asset_to_sell pool date price) date price qty_left hcase]
    exact ⟨rfl, rfl⟩
  · intro hcase
    rw [sell_asset_le pool (choose_asset_to_sell pool date price) date price qty_left hcase]
    exact ⟨rfl, rfl⟩
  · by_cases hcase : (pool.getD (choose_asset_to_sell pool date price) dfltAsset).qty > qty_left
    · rw [sell_asset_gt pool (choose_asset_to_sell pool date price) date price qty_left hcase]
    · rw [sell_asset_le pool (choose_asset_to_sell pool date price) date price qty_left hcase]

theorem C1_iteration_behaviour_witness :
    choose_asset_to_sell [{ date := 0, price := 10, qty := 1 }] 0 30 <
      ([{ date := 0, price := 10, qty := 1 }] : List Asset).length ∧
    (sell_asset [{ date := 0, price := 10, qty := 1 }]
        (choose_asset_to_sell [{ date := 0, price := 10, qty := 1 }] 0 30) 0 30 1).2.2 =
      min (([{ date := 0, price := 10, qty := 1 }] : List Asset).getD
        (choose_asset_to_sell [{ date := 0, price := 10, qty := 1 }] 0 30) dfltAsset).qty 1 := by
  obtain ⟨h1, _, _, h4, _, _, _, _⟩ :=
    C1_iteration_behaviour [{ date := 0, price := 10, qty := 1 }] 0 30 1 0 none 0
      (by simp) (by norm_num)
  exact ⟨h1, h4⟩

theorem poolQty_append (l1 l2 : List Asset) :
    poolQty (l1 ++ l2) = poolQty l1 + poolQty l2 := by
  simp [poolQty]

/-- A pool operation: an acquisition (`buy`) or a disposal (`sell`). -/
inductive Op where
  | buyOp (date : ℤ) (price qty : ℚ)
  | sellOp (date : ℤ) (price qty : ℚ)
deriving Repr

/-- Run a sequence of operations on a pool; a disposal that raises aborts
the run. -/
def runOps : AssetPool → List Op → Option AssetPool
  | ap, [] => some ap
  | ap, Op.buyOp d p q :: rest => runOps (buy ap d p q) rest
  | ap, Op.sellOp d p q :: rest =>
    match sell ap d p q with
    | .ok (ap', _) => runOps ap' rest
    | .error _ => none

/-- Validity of an operation sequence from a given pool state: every buy has
positive quantity, and every sell requests a positive quantity not
exceeding the pool's total quantity at that moment. -/
def ValidOps : AssetPool → List Op → Prop
  | _, [] => True
  | ap, Op.buyOp d p q :: rest => 0 < q ∧ ValidOps (buy ap d p q) rest
  | ap, Op.sellOp d p q :: rest =>
    0 < q ∧ q ≤ poolQty ap.pool ∧
    ∀ ap' r, sell ap d p q = .ok (ap', r) → ValidOps ap' rest

/-- Total quantity acquired by a sequence of operations. -/
def acquiredQty : List Op → ℚ
  | [] => 0
  | Op.buyOp _ _ q :: rest => q + acquiredQty rest
  | Op.sellOp _ _ _ :: rest => acquiredQty rest

/-- Total quantity disposed by a sequence of operations. -/
def disposedQty : List Op → ℚ
  | [] => 0
  | Op.buyOp _ _ _ :: rest => disposedQty rest
  | Op.sellOp _ _ q :: rest => q + disposedQty rest

/-- **C4.** For every valid sequence of operations from a pool whose lots
all have positive quantity: the run succeeds, every lot of the final pool
has positive quantity (no negative and no leftover zero-quantity lots), and
the final total quantity is the starting total plus everything acquired
minus everything disposed.  Instantiated at the empty pool this is exactly
conservation from a fresh pool; since it holds from every reachable state,
the invariant holds at every intermediate point as well. -/
theorem C4_conservation_positivity :
    ∀ (ops : List Op) (ap : AssetPool),
      (∀ a ∈ ap.pool, 0 < a.qty) → ValidOps ap ops →
      ∃ ap', runOps ap ops = some ap' ∧
        (∀ a ∈ ap'.pool, 0 < a.qty) ∧
        poolQty ap'.pool = poolQty ap.pool + acquiredQty ops - disposedQty ops := by
  intro ops
  induction ops with
  | nil =>
    intro ap hpos _
    exact ⟨ap, rfl, hpos, by simp [acquiredQty, disposedQty]⟩
  | cons op rest ih =>
    intro ap hpos hvalid
    cases op with
    | buyOp d p q =>
      obtain ⟨hq, hvalid'⟩ := hvalid
      have hpos' : ∀ a ∈ (buy ap d p q).pool, 0 < a.qty := by
        intro a ha
        rw [buy] at ha
        rcases List.mem_append.mp ha with ha | ha
        · exact hpos a ha
        · rw [List.mem_singleton] at ha
          rw [ha]
          exact hq
      rcases ih (buy ap d p q) hpos' hvalid' with ⟨ap', hrun, hp, hsum⟩
      refine ⟨ap', hrun, hp, ?_⟩
      rw [hsum]
      have hbq : poolQty (buy ap d p q).pool = poolQty ap.pool + q := by
        rw [buy]
        rw [poolQty_append, poolQty_cons, poolQty_nil]
        ring
      rw [hbq]
      rw [acquiredQty, disposedQty]
      ring
    | sellOp d p q =>
      obtain ⟨hq, hle, hvalid'⟩ := hvalid
      rcases sell_ok ap d p q hq hle with ⟨ap', r, hsell, hcons, hposimpl⟩
      rcases ih ap' (hposimpl hpos) (hvalid' ap' r hsell) with ⟨ap'', hrun, hp, hsum⟩
      refine ⟨ap'', ?_, hp, ?_⟩
      · show runOps ap (Op.sellOp d p q :: rest) = some ap''
        rw [runOps, hsell]
        exact hrun
      · rw [hsum, hcons]
        rw [acquiredQty, disposedQty]
        ring

theorem C4_conservation_positivity_witness :
    ∃ ap', runOps { pool := [], taxable_gain := 0 } [Op.buyOp 0 10 1, Op.sellOp 0 20 1] = some ap' ∧
      (∀ a ∈ ap'.pool, 0 < a.qty) ∧
      poolQty ap'.pool = poolQty ([] : List Asset) +
        acquiredQty [Op.buyOp 0 10 1, Op.sellOp 0 20 1] -
        disposedQty [Op.buyOp 0 10 1, Op.sellOp 0 20 1] := by
  refine C4_conservation_positivity [Op.buyOp 0 10 1, Op.sellOp 0 20 1]
    { pool := [], taxable_gain := 0 } (by simp) ?_
  refine ⟨by norm_num, ?_⟩
  show (0 : ℚ) < 1 ∧
    (1 : ℚ) ≤ poolQty (buy { pool := [], taxable_gain := 0 } 0 10 1).pool ∧
    ∀ ap' r, sell (buy { pool := [], taxable_gain := 0 } 0 10 1) 0 20 1 = .ok (ap', r) →
      ValidOps ap' []
  refine ⟨by norm_num, by norm_num [buy, poolQty], fun ap' r h => ?_⟩
  show True
  trivial

/-- The pool's insertion order agrees with ascending per-unit gain at the
given disposal date and price. -/
def GainSorted (date : ℤ) (price : ℚ) (pool : List Asset) : Prop :=
  pool.Pairwise (fun a b => cgt_price a date price ≤ cgt_price b date price)

/-- On a gain-sorted pool the scan always selects index 0: the head already
attains the minimum and ties go to the lowest index. -/
theorem choose_eq_zero_of_sorted (date : ℤ) (price : ℚ) (pool : List Asset)
    (hne : pool ≠ []) (hs : GainSorted date price pool) :
    choose_asset_to_sell pool date price = 0 := by
  match pool with
  | a :: rest =>
    by_contra hz
    have hi := choose_lt_length (a :: rest) date price hne
    have h0 : 0 < choose_asset_to_sell (a :: rest) date price := Nat.pos_of_ne_zero hz
    have hstrict := choose_first (a :: rest) date price hne 0 h0
    rw [List.getD_cons_zero] at hstrict
    rw [GainSorted, List.pairwise_cons] at hs
    obtain ⟨ha, _⟩ := hs
    obtain ⟨j, hj⟩ : ∃ j, choose_asset_to_sell (a :: rest) date price = j + 1 :=
      ⟨choose_asset_to_sell (a :: rest) date price - 1, by omega⟩
    rw [hj, List.getD_cons_succ] at hstrict
    have hmemj : rest.getD j dfltAsset ∈ rest := by
      apply getD_mem
      rw [hj] at hi
      simpa using hi
    exact absurd (ha _ hmemj) (not_le.mpr hstrict)

/-- The greedy head-first consumption total on a gain-sorted pool: consume
the head fully while the remaining quantity exceeds it, else consume the
remaining quantity from the head. -/
def greedyF (date : ℤ) (price : ℚ) : List Asset → ℚ → ℚ
  | [], _ => 0
  | a :: rest, q =>
    if q ≤ a.qty then q * cgt_price a date price
    else a.qty * cgt_price a date price + greedyF date price rest (q - a.qty)

/-- On a gain-sorted pool, the disposal loop's total is exactly the greedy
head-first total. -/
theorem sellLoop_sorted (date : ℤ) (price : ℚ) :
    ∀ (fuel : ℕ) (pool : List Asset) (q t : ℚ) (l : Option ℚ),
      GainSorted date price pool → 0 < q → q ≤ poolQty pool → pool.length < fuel →
      ∃ p' lst, sellLoop date price fuel pool q t l =
        .ok (p', t + greedyF date price pool q, some lst) := by
  intro fuel
  induction fuel with
  | zero =>
    intro pool q t l _ _ _ hf
    omega
  | succ fuel ih =>
    intro pool q t l hs hq hle hf
    match pool with
    | [] =>
      rw [poolQty_nil] at hle
      exact absurd (lt_of_lt_of_le hq hle) (lt_irrefl 0)
    | a :: rest =>
      have hne : (a :: rest) ≠ [] := by simp
      have hch : choose_asset_to_sell (a :: rest) date price = 0 :=
        choose_eq_zero_of_sorted date price (a :: rest) hne hs
      have hg : (a :: rest).getD (choose_asset_to_sell (a :: rest) date price) dfltAsset = a := by
        rw [hch]
        rfl
      by_cases hcase :
          ((a :: rest).getD (choose_asset_to_sell (a :: rest) date price) dfltAsset).qty > q
      · rw [sellLoop_step_set date price fuel (a :: rest) q t l hq hne hcase]
        rw [sellLoop_nonpos date price fuel _ (q - q) _ _ (by simp)]
        rw [hg] at hcase ⊢
        have hgr : greedyF date price (a :: rest) q = q * cgt_price a date price := by
          simp only [greedyF]
          rw [if_pos (le_of_lt hcase)]
        rw [hgr]
        exact ⟨_, _, rfl⟩
      · rw [sellLoop_step_erase date price fuel (a :: rest) q t l hq hne hcase]
        rw [hg] at hcase
        rw [hg, hch, List.eraseIdx_cons_zero]
        by_cases hstop : 0 < q - a.qty
        · have hle2 : q - a.qty ≤ poolQty rest := by
            rw [poolQty_cons] at hle
            linarith
          have hsort2 : GainSorted date price rest := by
            rw [GainSorted, List.pairwise_cons] at hs
            exact hs.2
          have hgr : greedyF date price (a :: rest) q =
              a.qty * cgt_price a date price + greedyF date price rest (q - a.qty) := by
            simp only [greedyF]
            rw [if_neg (not_le.mpr (by linarith))]
          rcases ih rest (q - a.qty) (t + a.qty * cgt_price a date price) _
            hsort2 hstop hle2 (by simpa using Nat.lt_of_succ_lt_succ hf) with ⟨p2, lst2, heq⟩
          rw [heq, hgr, ← add_assoc]
          exact ⟨_, _, rfl⟩
        · have h1 : a.qty ≤ q := le_of_not_lt hcase
          have h2 : q - a.qty ≤ 0 := le_of_not_lt hstop
          have hqeq : q = a.qty := by linarith
          rw [sellLoop_nonpos date price fuel _ (q - a.qty) _ _ hstop]
          have hgr : greedyF date price (a :: rest) q = q * cgt_price a date price := by
            simp only [greedyF]
            rw [if_pos (le_of_eq hqeq)]
          rw [hgr, hqeq]
          exact ⟨_, _, rfl⟩

theorem poolQty_nonneg (l : List Asset) (h : ∀ a ∈ l, 0 ≤ a.qty) : 0 ≤ poolQty l := by
  induction l with
  | nil => simp [poolQty]
  | cons a rest ih =>
    rw [poolQty_cons]
    have h1 := h a (by simp)
    have h2 := ih (fun b hb => h b (by simp [hb]))
    linarith

theorem poolQty_take_succ (l : List Asset) :
    ∀ (k : ℕ), k < l.length →
      poolQty (l.take (k + 1)) = poolQty (l.take k) + (l.getD k dfltAsset).qty := by
  induction l with
  | nil =>
    intro k hk
    simp at hk
  | cons a rest ih =>
    intro k hk
    match k with
    | 0 =>
      simp only [List.take_succ_cons, List.take_zero, List.getD_cons_zero, poolQty_cons,
        poolQty_nil]
      ring
    | k + 1 =>
      simp only [List.take_succ_cons, List.getD_cons_succ, poolQty_cons]
      rw [ih k (by simpa using hk)]
      ring

theorem poolQty_take_le (l : List Asset) (m : ℕ) (h : ∀ a ∈ l, 0 ≤ a.qty) :
    poolQty (l.take m) ≤ poolQty l := by
  conv_rhs => rw [← List.take_append_drop m l]
  rw [poolQty_append]
  have hd : 0 ≤ poolQty (l.drop m) :=
    poolQty_nonneg _ (fun a ha => h a (List.mem_of_mem_drop ha))
  linarith

/-- The greedy head-first total, under the claim's hypotheses (full
consumption of the first `k` lots plus part of lot `k+1`), equals the
spec's closed formula. -/
theorem greedyF_eq_take (date : ℤ) (price : ℚ) :
    ∀ (k : ℕ) (pool : List Asset) (q : ℚ),
      (∀ a ∈ pool, 0 < a.qty) → k < pool.length →
      poolQty (pool.take k) < q →
      q - poolQty (pool.take k) < (pool.getD k dfltAsset).qty →
      greedyF date price pool q =
        ((pool.take k).map (fun a => a.qty * cgt_price a date price)).sum +
          (q - poolQty (pool.take k)) * cgt_price (pool.getD k dfltAsset) date price := by
  intro k
  induction k with
  | zero =>
    intro pool q hpos hk hlo hhi
    match pool with
    | a :: rest =>
      rw [List.take_zero, poolQty_nil] at hlo hhi ⊢
      rw [List.getD_cons_zero] at hhi ⊢
      rw [sub_zero] at hhi ⊢
      simp only [List.map_nil, List.sum_nil, greedyF]
      rw [if_pos (le_of_lt hhi)]
      ring
  | succ k ih =>
    intro pool q hpos hk hlo hhi
    match pool with
    | a :: rest =>
      have hpos' : ∀ b ∈ rest, 0 < b.qty := fun b hb => hpos b (by simp [hb])
      rw [List.take_succ_cons, poolQty_cons] at hlo hhi
      rw [List.getD_cons_succ] at hhi
      have htk : 0 ≤ poolQty (rest.take k) :=
        poolQty_nonneg _ (fun b hb => le_of_lt (hpos' b (List.mem_of_mem_take hb)))
      have ha_lt : a.qty < q := by linarith
      have heq : greedyF date price (a :: rest) q =
          a.qty * cgt_price a date price + greedyF date price rest (q - a.qty) := by
        simp only [greedyF]
        rw [if_neg (not_le.mpr ha_lt)]
      rw [heq, ih rest (q - a.qty) hpos' (by simpa using hk) (by linarith) (by linarith)]
      rw [List.take_succ_cons, poolQty_cons, List.getD_cons_succ]
      simp only [List.map_cons, List.sum_cons]
      ring

/-- Cost of an arbitrary assignment of consumed quantities to the pool's
lots (paired positionally): the sum of (consumed quantity) x (that lot's
per-unit gain). -/
def disposalCost (date : ℤ) (price : ℚ) (c : List ℚ) (pool : List Asset) : ℚ :=
  (List.zipWith (fun ci a => ci * cgt_price a date price) c pool).sum

theorem disposalCost_nil (date : ℤ) (price : ℚ) (pool : List Asset) :
    disposalCost date price [] pool = 0 := rfl

theorem disposalCost_cons (date : ℤ) (price : ℚ) (x : ℚ) (b : Asset)
    (cs : List ℚ) (pool' : List Asset) :
    disposalCost date price (x :: cs) (b :: pool') =
      x * cgt_price b date price + disposalCost date price cs pool' := by
  simp [disposalCost]

/-- Subtract a total of `s` from a list of quantities, front first. -/
def reduceBy : List ℚ → ℚ → List ℚ
  | [], _ => []
  | x :: xs, s => if s ≤ x then (x - s) :: xs else 0 :: reduceBy xs (s - x)

theorem reduceBy_sum : ∀ (xs : List ℚ) (s : ℚ), 0 ≤ s → s ≤ xs.sum →
    (reduceBy xs s).sum = xs.sum - s := by
  intro xs
  induction xs with
  | nil =>
    intro s h0 hs
    rw [List.sum_nil] at hs ⊢
    show (0 : ℚ) = 0 - s
    linarith
  | cons x xs ih =>
    intro s h0 hs
    rw [List.sum_cons] at hs
    by_cases hc : s ≤ x
    · simp only [reduceBy, if_pos hc, List.sum_cons]
      ring
    · simp only [reduceBy, if_neg hc, List.sum_cons]
      rw [ih (s - x) (by linarith [not_le.mp hc]) (by linarith)]
      ring

theorem reduceBy_bounds : ∀ (xs : List ℚ) (s : ℚ), 0 ≤ s → (∀ x ∈ xs, 0 ≤ x) →
    List.Forall₂ (fun y x => 0 ≤ y ∧ y ≤ x) (reduceBy xs s) xs := by
  intro xs
  induction xs with
  | nil =>
    intro s _ _
    exact List.Forall₂.nil
  | cons x xs ih =>
    intro s h0 hpos
    by_cases hc : s ≤ x
    · simp only [reduceBy, if_pos hc]
      refine List.Forall₂.cons ⟨by linarith, by linarith⟩ ?_
      rw [List.forall₂_same]
      intro a ha
      exact ⟨hpos a (by simp [ha]), le_refl a⟩
    · simp only [reduceBy, if_neg hc]
      refine List.Forall₂.cons ⟨le_refl 0, hpos x (by simp)⟩ ?_
      exact ih (s - x) (by linarith [not_le.mp hc]) (fun b hb => hpos b (by simp [hb]))

theorem forall2_fst_nonneg : ∀ {c : List ℚ} {pool : List Asset},
    List.Forall₂ (fun ci a => 0 ≤ ci ∧ ci ≤ a.qty) c pool → ∀ x ∈ c, 0 ≤ x := by
  intro c pool h
  induction h with
  | nil =>
    intro x hx
    simp at hx
  | cons h1 h2 ih =>
    intro x hx
    rcases List.mem_cons.mp hx with hx | hx
    · rw [hx]
      exact h1.1
    · exact ih x hx

theorem forall2_le_trans : ∀ {c' c : List ℚ} {pool : List Asset},
    List.Forall₂ (fun y x => 0 ≤ y ∧ y ≤ x) c' c →
    List.Forall₂ (fun ci a => 0 ≤ ci ∧ ci ≤ a.qty) c pool →
    List.Forall₂ (fun ci a => 0 ≤ ci ∧ ci ≤ a.qty) c' pool := by
  intro c' c pool h1
  induction h1 generalizing pool with
  | nil =>
    intro h2
    cases h2
    exact List.Forall₂.nil
  | cons hx h1' ih =>
    intro h2
    cases h2 with
    | cons hy h2' => exact List.Forall₂.cons ⟨hx.1, le_trans hx.2 hy.2⟩ (ih h2')

/-- Any assignment pays at least `g1` per unit when every lot's gain is at
least `g1`. -/
theorem cost_ge_mul_of_le (date : ℤ) (price : ℚ) (g1 : ℚ) :
    ∀ (c : List ℚ) (pool : List Asset),
      c.length = pool.length → (∀ x ∈ c, 0 ≤ x) →
      (∀ b ∈ pool, g1 ≤ cgt_price b date price) →
      g1 * c.sum ≤ disposalCost date price c pool := by
  intro c
  induction c with
  | nil =>
    intro pool _ _ _
    rw [List.sum_nil, disposalCost_nil, mul_zero]
  | cons x cs ih =>
    intro pool hlen hx hg
    match pool with
    | [] => simp at hlen
    | b :: pool' =>
      rw [disposalCost_cons, List.sum_cons]
      have h1 : x * g1 ≤ x * cgt_price b date price :=
        mul_le_mul_of_nonneg_left (hg b (by simp)) (hx x (by simp))
      have h2 := ih pool' (by simpa using hlen) (fun y hy => hx y (by simp [hy]))
        (fun b' hb' => hg b' (by simp [hb']))
      calc g1 * (x + cs.sum) = x * g1 + g1 * cs.sum := by ring
        _ ≤ x * cgt_price b date price + disposalCost date price cs pool' :=
          add_le_add h1 h2

/-- Lowering an assignment pointwise saves at least `g1` per unit removed
when every lot's gain is at least `g1`. -/
theorem cost_sub_bound (date : ℤ) (price : ℚ) (g1 : ℚ) :
    ∀ (c' c : List ℚ) (pool : List Asset),
      List.Forall₂ (fun y x => 0 ≤ y ∧ y ≤ x) c' c →
      c.length = pool.length →
      (∀ b ∈ pool, g1 ≤ cgt_price b date price) →
      disposalCost date price c' pool + g1 * (c.sum - c'.sum) ≤
        disposalCost date price c pool := by
  intro c'
  induction c' with
  | nil =>
    intro c pool hf hlen hg
    rw [List.forall₂_nil_left_iff] at hf
    rw [hf]
    rw [List.sum_nil, disposalCost_nil]
    simp
  | cons y c's ih =>
    intro c pool hf hlen hg
    rw [List.forall₂_cons_left_iff] at hf
    obtain ⟨x, cs, hyx, hf', rfl⟩ := hf
    match pool with
    | [] => simp at hlen
    | b :: pool' =>
      rw [disposalCost_cons, disposalCost_cons, List.sum_cons, List.sum_cons]
      have hdiff : g1 * (x - y) ≤ (x - y) * cgt_price b date price := by
        calc g1 * (x - y) = (x - y) * g1 := by ring
          _ ≤ (x - y) * cgt_price b date price :=
            mul_le_mul_of_nonneg_left (hg b (by simp)) (sub_nonneg.mpr hyx.2)
      have hih := ih cs pool' hf' (by simpa using hlen)
        (fun b' hb' => hg b' (by simp [hb']))
      calc y * cgt_price b date price + disposalCost date price c's pool' +
            g1 * ((x + cs.sum) - (y + c's.sum))
          = (y * cgt_price b date price + g1 * (x - y)) +
            (disposalCost date price c's pool' + g1 * (cs.sum - c's.sum)) := by ring
        _ ≤ (y * cgt_price b date price + (x - y) * cgt_price b date price) +
            disposalCost date price cs pool' := add_le_add (add_le_add_left hdiff _) hih
        _ = x * cgt_price b date price + disposalCost date price cs pool' := by ring

/-- Greedy lower bound: on a gain-sorted pool, the greedy head-first total
for the assignment's total quantity never exceeds the assignment's cost. -/
theorem greedyF_le_cost (date : ℤ) (price : ℚ) :
    ∀ (pool : List Asset) (c : List ℚ),
      GainSorted date price pool →
      List.Forall₂ (fun ci a => 0 ≤ ci ∧ ci ≤ a.qty) c pool →
      greedyF date price pool c.sum ≤ disposalCost date price c pool := by
  intro pool
  induction pool with
  | nil =>
    intro c _ hf
    rw [List.forall₂_nil_right_iff] at hf
    rw [hf]
    rw [disposalCost_nil]
    exact le_refl _
  | cons a rest ih =>
    intro c hs hf
    rw [List.forall₂_cons_right_iff] at hf
    obtain ⟨c1, cs, hc1, hf', rfl⟩ := hf
    rw [GainSorted, List.pairwise_cons] at hs
    obtain ⟨hga, hs'⟩ := hs
    rw [List.sum_cons, disposalCost_cons]
    have hcs_pos : ∀ x ∈ cs, 0 ≤ x := forall2_fst_nonneg hf'
    by_cases hQ : c1 + cs.sum ≤ a.qty
    · have hgr : greedyF date price (a :: rest) (c1 + cs.sum) =
          (c1 + cs.sum) * cgt_price a date price := by
        simp only [greedyF]
        rw [if_pos hQ]
      rw [hgr]
      have hbound := cost_ge_mul_of_le date price (cgt_price a date price) cs rest
        hf'.length_eq hcs_pos hga
      calc (c1 + cs.sum) * cgt_price a date price
          = c1 * cgt_price a date price + cgt_price a date price * cs.sum := by ring
        _ ≤ c1 * cgt_price a date price + disposalCost date price cs rest :=
          add_le_add_left hbound _
    · have ha_lt : a.qty < c1 + cs.sum := not_le.mp hQ
      have hs_nonneg : (0 : ℚ) ≤ a.qty - c1 := by linarith [hc1.2]
      have hs_le : a.qty - c1 ≤ cs.sum := by linarith
      have hsum2 := reduceBy_sum cs (a.qty - c1) hs_nonneg hs_le
      have hbnds := reduceBy_bounds cs (a.qty - c1) hs_nonneg hcs_pos
      have hfeas2 := forall2_le_trans hbnds hf'
      have hIH := ih (reduceBy cs (a.qty - c1)) hs' hfeas2
      rw [hsum2] at hIH
      have hgr : greedyF date price (a :: rest) (c1 + cs.sum) =
          a.qty * cgt_price a date price +
            greedyF date price rest ((c1 + cs.sum) - a.qty) := by
        simp only [greedyF]
        rw [if_neg hQ]
      have harg : (c1 + cs.sum) - a.qty = cs.sum - (a.qty - c1) := by ring
      rw [hgr, harg]
      have hsub := cost_sub_bound date price (cgt_price a date price)
        (reduceBy cs (a.qty - c1)) cs rest hbnds hf'.length_eq hga
      rw [hsum2] at hsub
      have hsimp : cs.sum - (cs.sum - (a.qty - c1)) = a.qty - c1 := by ring
      rw [hsimp] at hsub
      calc a.qty * cgt_price a date price +
            greedyF date price rest (cs.sum - (a.qty - c1))
          ≤ a.qty * cgt_price a date price +
            disposalCost date price (reduceBy cs (a.qty - c1)) rest :=
          add_le_add_left hIH _
        _ = c1 * cgt_price a date price +
            (disposalCost date price (reduceBy cs (a.qty - c1)) rest +
              cgt_price a date price * (a.qty - c1)) := by ring
        _ ≤ c1 * cgt_price a date price + disposalCost date price cs rest := by
          have h5 : disposalCost date price (reduceBy cs (a.qty - c1)) rest +
              cgt_price a date price * (a.qty - c1) ≤ disposalCost date price cs rest := by
            linarith [hsub]
          exact add_le_add_left h5 _

/-- **C6.** Greedy optimality for a single sale: on a pool whose insertion
order lists per-unit gains in ascending order (g1 <= ... <= gn), all lots
positive, and a disposal quantity that fully consumes the first `k` lots
plus part of lot `k+1`, the disposal succeeds and its total taxable gain
(the amount added to the cumulative figure, here started at 0) equals
sum over lots 1..k of (lot quantity x gain) plus (remaining partial
quantity x g_{k+1}); and no other assignment of consumed quantities to lots
covering the same disposal quantity attains a strictly lower total. -/
theorem C6_greedy_single_sale (pool : List Asset) (date : ℤ) (price qty : ℚ) (k : ℕ)
    (hk : k < pool.length)
    (hs : GainSorted date price pool)
    (hpos : ∀ a ∈ pool, 0 < a.qty)
    (hlo : poolQty (pool.take k) < qty)
    (hhi : qty - poolQty (pool.take k) < (pool.getD k dfltAsset).qty) :
    ∃ ap' r, sell { pool := pool, taxable_gain := 0 } date price qty = .ok (ap', r) ∧
      ap'.taxable_gain =
        ((pool.take k).map (fun a => a.qty * cgt_price a date price)).sum +
          (qty - poolQty (pool.take k)) * cgt_price (pool.getD k dfltAsset) date price ∧
      (∀ c, List.Forall₂ (fun ci a => 0 ≤ ci ∧ ci ≤ a.qty) c pool → c.sum = qty →
        ap'.taxable_gain ≤ disposalCost date price c pool) := by
  have htake_nonneg : 0 ≤ poolQty (pool.take k) :=
    poolQty_nonneg _ (fun a ha => le_of_lt (hpos a (List.mem_of_mem_take ha)))
  have hq : 0 < qty := lt_of_le_of_lt htake_nonneg hlo
  have hle : qty ≤ poolQty pool := by
    have h1 := poolQty_take_succ pool k hk
    have h2 : poolQty (pool.take (k + 1)) ≤ poolQty pool :=
      poolQty_take_le pool (k + 1) (fun a ha => le_of_lt (hpos a ha))
    linarith
  rcases sellLoop_sorted date price (pool.length + 1) pool qty 0 none hs hq hle (by omega)
    with ⟨p', lst, heq⟩
  have hsell := sell_eq_of_loop { pool := pool, taxable_gain := 0 } date price qty
    p' _ lst heq
  refine ⟨_, lst, hsell, ?_, ?_⟩
  · show (0 : ℚ) + (0 + greedyF date price pool qty) =
      ((pool.take k).map (fun a => a.qty * cgt_price a date price)).sum +
        (qty - poolQty (pool.take k)) * cgt_price (pool.getD k dfltAsset) date price
    rw [zero_add, zero_add]
    exact greedyF_eq_take date price k pool qty hpos hk hlo hhi
  · intro c hfc hsum
    show (0 : ℚ) + (0 + greedyF date price pool qty) ≤ disposalCost date price c pool
    rw [zero_add, zero_add, ← hsum]
    exact greedyF_le_cost date price pool c hs hfc

theorem C6_greedy_single_sale_witness :
    ∃ ap' r,
      sell { pool := [{ date := 0, price := 20, qty := 1 },
                      { date := 0, price := 10, qty := 1 }], taxable_gain := 0 }
        0 30 (3 / 2) = .ok (ap', r) ∧
      ap'.taxable_gain =
        ((([{ date := 0, price := 20, qty := 1 },
            { date := 0, price := 10, qty := 1 }] : List Asset).take 1).map
          (fun a => a.qty * cgt_price a 0 30)).sum +
          ((3 / 2 : ℚ) - poolQty (([{ date := 0, price := 20, qty := 1 },
            { date := 0, price := 10, qty := 1 }] : List Asset).take 1)) *
            cgt_price (([{ date := 0, price := 20, qty := 1 },
              { date := 0, price := 10, qty := 1 }] : List Asset).getD 1 dfltAsset) 0 30 ∧
      (∀ c, List.Forall₂ (fun ci a => 0 ≤ ci ∧ ci ≤ a.qty) c
          ([{ date := 0, price := 20, qty := 1 },
            { date := 0, price := 10, qty := 1 }] : List Asset) →
        c.sum = 3 / 2 →
        ap'.taxable_gain ≤ disposalCost 0 30 c
          ([{ date := 0, price := 20, qty := 1 },
            { date := 0, price := 10, qty := 1 }] : List Asset)) := by
  refine C6_greedy_single_sale
    [{ date := 0, price := 20, qty := 1 }, { date := 0, price := 10, qty := 1 }]
    0 30 (3 / 2) 1 (by norm_num) ?_ ?_ ?_ ?_
  · rw [GainSorted]
    refine List.Pairwise.cons ?_ (List.pairwise_singleton _ _)
    intro b hb
    rw [List.mem_singleton] at hb
    rw [hb]
    norm_num [cgt_price]
  · intro a ha
    rcases List.mem_cons.mp ha with ha | ha
    · rw [ha]
      norm_num
    · rw [List.mem_singleton] at ha
      rw [ha]
      norm_num
  · norm_num [poolQty]
  · norm_num [poolQty, dfltAsset]

/-- Instrumented disposal loop: same control flow as `sellLoop`, but
recording, in iteration order, the selected lot (pre-consumption snapshot)
and the quantity consumed from it.  `sellTrace_ok_loop` below proves it is
a faithful projection of `sellLoop`. -/
def sellTrace (date : ℤ) (price : ℚ) :
    ℕ → List Asset → ℚ → Except (SellError × List Asset) (List Asset × List (Asset × ℚ))
  | 0, pool, _ => .ok (pool, [])
  | fuel + 1, pool, qty_left =>
    if 0 < qty_left then
      match pool with
      | [] => .error (.indexError, pool)
      | _ :: _ =>
        let index := choose_asset_to_sell pool date price
        let r := sell_asset pool index date price qty_left
        match sellTrace date price fuel r.1 (qty_left - r.2.2) with
        | .ok (p', tr) => .ok (p', (pool.getD index dfltAsset, r.2.2) :: tr)
        | .error e => .error e
    else
      .ok (pool, [])

/-- Taxable-gain contribution of one recorded iteration: the quantity
consumed from the selected lot times that lot's per-unit gain. -/
def traceGain (date : ℤ) (price : ℚ) (e : Asset × ℚ) : ℚ :=
  e.2 * cgt_price e.1 date price

/-- The loop-local `taxable_gain` after running the recorded iterations:
the last iteration's contribution, or the incoming value when none ran. -/
def lastGain (date : ℤ) (price : ℚ) (l : Option ℚ) (tr : List (Asset × ℚ)) : Option ℚ :=
  match tr.getLast? with
  | none => l
  | some e => some (traceGain date price e)

theorem lastGain_nil (date : ℤ) (price : ℚ) (l : Option ℚ) :
    lastGain date price l [] = l := rfl

theorem lastGain_cons (date : ℤ) (price : ℚ) (l : Option ℚ) (e : Asset × ℚ)
    (tr : List (Asset × ℚ)) :
    lastGain date price l (e :: tr) =
      lastGain date price (some (traceGain date price e)) tr := by
  match tr with
  | [] => rfl
  | x :: xs =>
    rw [lastGain, lastGain, List.getLast?_cons_cons]
    obtain ⟨y, hy⟩ : ∃ y, (x :: xs).getLast? = some y := by
      cases h : (x :: xs).getLast? with
      | none =>
        rw [List.getLast?_eq_none_iff] at h
        exact absurd h (by simp)
      | some y => exact ⟨y, rfl⟩
    rw [hy]

/-- In both branches the recorded gain is (consumed quantity) x (the
selected lot's per-unit gain). -/
theorem sell_asset_gain (pool : List Asset) (i : ℕ) (date : ℤ) (price q : ℚ) :
    (sell_asset pool i date price q).2.1 =
      (sell_asset pool i date price q).2.2 *
        cgt_price (pool.getD i dfltAsset) date price := by
  by_cases hcase : (pool.getD i dfltAsset).qty > q
  · rw [sell_asset_gt pool i date price q hcase]
  · rw [sell_asset_le pool i date price q hcase]

theorem sellTrace_nonpos (date : ℤ) (price : ℚ) (fuel : ℕ) (pool : List Asset)
    (q : ℚ) (hq : ¬ 0 < q) :
    sellTrace date price fuel pool q = .ok (pool, []) := by
  match fuel with
  | 0 => rfl
  | fuel + 1 => simp [sellTrace, hq]

theorem sellTrace_empty (date : ℤ) (price : ℚ) (fuel : ℕ) (q : ℚ) (hq : 0 < q) :
    sellTrace date price (fuel + 1) [] q = .error (.indexError, []) := by
  simp [sellTrace, hq]

theorem sellTrace_step_ok (date : ℤ) (price : ℚ) (fuel : ℕ) (pool : List Asset)
    (q : ℚ) (p2 : List Asset) (tr2 : List (Asset × ℚ)) (hq : 0 < q) (hne : pool ≠ [])
    (hinner : sellTrace date price fuel
        (sell_asset pool (choose_asset_to_sell pool date price) date price q).1
        (q - (sell_asset pool (choose_asset_to_sell pool date price) date price q).2.2) =
      .ok (p2, tr2)) :
    sellTrace date price (fuel + 1) pool q =
      .ok (p2, (pool.getD (choose_asset_to_sell pool date price) dfltAsset,
        (sell_asset pool (choose_asset_to_sell pool date price) date price q).2.2) :: tr2) := by
  match pool with
  | a :: rest =>
    simp only [sellTrace, if_pos hq]
    rw [hinner]

theorem sellTrace_step_err (date : ℤ) (price : ℚ) (fuel : ℕ) (pool : List Asset)
    (q : ℚ) (e : SellError × List Asset) (hq : 0 < q) (hne : pool ≠ [])
    (hinner : sellTrace date price fuel
        (sell_asset pool (choose_asset_to_sell pool date price) date price q).1
        (q - (sell_asset pool (choose_asset_to_sell pool date price) date price q).2.2) =
      .error e) :
    sellTrace date price (fuel + 1) pool q = .error e := by
  match pool with
  | a :: rest =>
    simp only [sellTrace, if_pos hq]
    rw [hinner]

/-- Agreement of the trace with the loop, success direction: the loop's
total is the incoming total plus the sum of the recorded contributions, and
the loop-local last gain is the last recorded contribution. -/
theorem sellTrace_ok_loop (date : ℤ) (price : ℚ) :
    ∀ (fuel : ℕ) (pool : List Asset) (q t : ℚ) (l : Option ℚ)
      (p' : List Asset) (tr : List (Asset × ℚ)),
      sellTrace date price fuel pool q = .ok (p', tr) →
      sellLoop date price fuel pool q t l =
        .ok (p', t + (tr.map (traceGain date price)).sum, lastGain date price l tr) := by
  intro fuel
  induction fuel with
  | zero =>
    intro pool q t l p' tr heq
    rw [show sellTrace date price 0 pool q = .ok (pool, []) from rfl] at heq
    simp only [Except.ok.injEq, Prod.mk.injEq] at heq
    obtain ⟨h1, h2⟩ := heq
    subst h1
    subst h2
    rw [show sellLoop date price 0 pool q t l = .ok (pool, t, l) from rfl]
    rw [lastGain_nil]
    simp
  | succ fuel ih =>
    intro pool q t l p' tr heq
    by_cases hq : 0 < q
    · cases pool with
      | nil =>
        rw [sellTrace_empty date price fuel q hq] at heq
        exact absurd heq (by simp)
      | cons a rest =>
        have hne : (a :: rest) ≠ [] := by simp
        cases hinner : sellTrace date price fuel
            (sell_asset (a :: rest) (choose_asset_to_sell (a :: rest) date price) date price q).1
            (q - (sell_asset (a :: rest) (choose_asset_to_sell (a :: rest) date price)
              date price q).2.2) with
        | error e =>
          rw [sellTrace_step_err date price fuel (a :: rest) q e hq hne hinner] at heq
          exact absurd heq (by simp)
        | ok res =>
          obtain ⟨p2, tr2⟩ := res
          rw [sellTrace_step_ok date price fuel (a :: rest) q p2 tr2 hq hne hinner] at heq
          simp only [Except.ok.injEq, Prod.mk.injEq] at heq
          obtain ⟨hp, htr⟩ := heq
          subst hp
          subst htr
          rw [sellLoop_step date price fuel (a :: rest) q t l hq hne]
          rw [ih _ _ _ _ _ _ hinner]
          rw [lastGain_cons]
          have hgain : traceGain date price
              ((a :: rest).getD (choose_asset_to_sell (a :: rest) date price) dfltAsset,
               (sell_asset (a :: rest) (choose_asset_to_sell (a :: rest) date price)
                 date price q).2.2) =
              (sell_asset (a :: rest) (choose_asset_to_sell (a :: rest) date price)
                date price q).2.1 := by
            rw [traceGain]
            exact (sell_asset_gain (a :: rest) _ date price q).symm
          rw [List.map_cons, List.sum_cons, hgain, ← add_assoc]
    · rw [sellTrace_nonpos date price (fuel + 1) pool q hq] at heq
      simp only [Except.ok.injEq, Prod.mk.injEq] at heq
      obtain ⟨h1, h2⟩ := heq
      subst h1
      subst h2
      rw [sellLoop_nonpos date price (fuel + 1) pool q t l hq]
      rw [lastGain_nil]
      simp

/-- Agreement of the trace with the loop, failure direction. -/
theorem sellTrace_err_loop (date : ℤ) (price : ℚ) :
    ∀ (fuel : ℕ) (pool : List Asset) (q t : ℚ) (l : Option ℚ)
      (e : SellError × List Asset),
      sellTrace date price fuel pool q = .error e →
      sellLoop date price fuel pool q t l = .error e := by
  intro fuel
  induction fuel with
  | zero =>
    intro pool q t l e heq
    rw [show sellTrace date price 0 pool q = .ok (pool, []) from rfl] at heq
    exact absurd heq (by simp)
  | succ fuel ih =>
    intro pool q t l e heq
    by_cases hq : 0 < q
    · cases pool with
      | nil =>
        rw [sellTrace_empty date price fuel q hq] at heq
        simp only [Except.error.injEq] at heq
        rw [sellLoop_empty date price fuel q t l hq, heq]
      | cons a rest =>
        have hne : (a :: rest) ≠ [] := by simp
        cases hinner : sellTrace date price fuel
            (sell_asset (a :: rest) (choose_asset_to_sell (a :: rest) date price) date price q).1
            (q - (sell_asset (a :: rest) (choose_asset_to_sell (a :: rest) date price)
              date price q).2.2) with
        | ok res =>
          obtain ⟨p2, tr2⟩ := res
          rw [sellTrace_step_ok date price fuel (a :: rest) q p2 tr2 hq hne hinner] at heq
          exact absurd heq (by simp)
        | error e2 =>
          rw [sellTrace_step_err date price fuel (a :: rest) q e2 hq hne hinner] at heq
          simp only [Except.error.injEq] at heq
          subst heq
          rw [sellLoop_step date price fuel (a :: rest) q t l hq hne]
          exact ih _ _ _ _ _ hinner
    · rw [sellTrace_nonpos date price (fuel + 1) pool q hq] at heq
      exact absurd heq (by simp)

/-- A successful trace run with positive quantity records at least one
iteration. -/
theorem sellTrace_ne_nil (date : ℤ) (price : ℚ) (fuel : ℕ) (pool : List Asset)
    (q : ℚ) (p' : List Asset) (tr : List (Asset × ℚ)) (hq : 0 < q) (hne : pool ≠ [])
    (heq : sellTrace date price (fuel + 1) pool q = .ok (p', tr)) : tr ≠ [] := by
  cases hinner : sellTrace date price fuel
      (sell_asset pool (choose_asset_to_sell pool date price) date price q).1
      (q - (sell_asset pool (choose_asset_to_sell pool date price) date price q).2.2) with
  | error e =>
    rw [sellTrace_step_err date price fuel pool q e hq hne hinner] at heq
    exact absurd heq (by simp)
  | ok res =>
    obtain ⟨p2, tr2⟩ := res
    rw [sellTrace_step_ok date price fuel pool q p2 tr2 hq hne hinner] at heq
    simp only [Except.ok.injEq, Prod.mk.injEq] at heq
    obtain ⟨_, htr⟩ := heq
    rw [← htr]
    simp

/-- **C10.** For every successful disposal (positive requested quantity
within the pool's total): the value `sell` returns is the taxable-gain
contribution of the LAST lot consumed in the loop — (quantity consumed from
the final selected lot) x (that lot's per-unit gain) — while the cumulative
`taxable_gain` absorbs the contributions of all consumed lots; when exactly
one lot-iteration occurs, the returned value therefore equals the
disposal's total. -/
theorem C10_return_is_last_lot (ap : AssetPool) (date : ℤ) (price qty : ℚ)
    (hq : 0 < qty) (hle : qty ≤ poolQty ap.pool) :
    ∃ p' tr e,
      sellTrace date price (ap.pool.length + 1) ap.pool qty = .ok (p', tr) ∧
      tr.getLast? = some e ∧
      sell ap date price qty =
        .ok ({ pool := p',
               taxable_gain := ap.taxable_gain + (tr.map (traceGain date price)).sum },
          e.2 * cgt_price e.1 date price) ∧
      (tr.length = 1 →
        e.2 * cgt_price e.1 date price = (tr.map (traceGain date price)).sum) := by
  have hne : ap.pool ≠ [] := by
    intro hnil
    rw [hnil, poolQty_nil] at hle
    exact absurd (lt_of_lt_of_le hq hle) (lt_irrefl 0)
  cases htr : sellTrace date price (ap.pool.length + 1) ap.pool qty with
  | error e =>
    exfalso
    have herr := sellTrace_err_loop date price (ap.pool.length + 1) ap.pool qty 0 none e htr
    rcases sellLoop_ok date price (ap.pool.length + 1) ap.pool qty 0 none hq hle (by omega)
      with ⟨p', t', lst, heq, _, _⟩
    rw [heq] at herr
    exact absurd herr (by simp)
  | ok res =>
    obtain ⟨p', tr⟩ := res
    have hne_tr : tr ≠ [] :=
      sellTrace_ne_nil date price ap.pool.length ap.pool qty p' tr hq hne htr
    obtain ⟨e, he⟩ : ∃ e, tr.getLast? = some e := by
      cases htl : tr.getLast? with
      | none =>
        rw [List.getLast?_eq_none_iff] at htl
        exact absurd htl hne_tr
      | some y => exact ⟨y, rfl⟩
    have hloop := sellTrace_ok_loop date price (ap.pool.length + 1) ap.pool qty 0 none p' tr htr
    rw [lastGain, he] at hloop
    rw [zero_add] at hloop
    have hsell := sell_eq_of_loop ap date price qty p'
      ((tr.map (traceGain date price)).sum) (traceGain date price e) hloop
    refine ⟨p', tr, e, rfl, he, hsell, ?_⟩
    intro hlen
    rw [List.length_eq_one] at hlen
    obtain ⟨x, rfl⟩ := hlen
    simp only [List.getLast?_singleton, Option.some.injEq] at he
    subst he
    simp [traceGain]

theorem C10_return_is_last_lot_witness :
    ∃ p' tr e,
      sellTrace 0 30
        (({ pool := [{ date := 0, price := 10, qty := 1 }], taxable_gain := 0 } : AssetPool).pool.length + 1)
        ({ pool := [{ date := 0, price := 10, qty := 1 }], taxable_gain := 0 } : AssetPool).pool 1 = .ok (p', tr) ∧
      tr.getLast? = some e ∧
      sell { pool := [{ date := 0, price := 10, qty := 1 }], taxable_gain := 0 } 0 30 1 =
        .ok ({ pool := p', taxable_gain := ({ pool := [{ date := 0, price := 10, qty := 1 }], taxable_gain := 0 } : AssetPool).taxable_gain + (tr.map (traceGain 0 30)).sum }, e.2 * cgt_price e.1 0 30) ∧
      (tr.length = 1 → e.2 * cgt_price e.1 0 30 = (tr.map (traceGain 0 30)).sum) :=
  C10_return_is_last_lot
    { pool := [{ date := 0, price := 10, qty := 1 }], taxable_gain := 0 } 0 30 1
    (by norm_num) (by norm_num [poolQty])
